import Mathlib

/-
Verification of the operation-policy state-management core of
`src/portals/publisher/source/src/app/components/Apis/Details/Policies/Policies.tsx`.

The component keeps an in-memory tree of API operations; each operation carries
three ordered policy-attachment lists (request, response and fault flows).  The
mutation functions (`updateApiOperations`, `updateAllApiOperations`,
`deleteApiOperation`, `rearrangeApiOperations`), the commit step (`saveApi`) and
the catalog adapter (`fetchPolicies`) are embedded below as pure functions:
`cloneDeep` followed by in-place mutation of the clone becomes a function from
the old tree to the new tree, React state becomes explicit arguments and
results, and the JavaScript array/Map idioms used by the source
(`find`, `indexOf`, `splice`, `Map.set`, truthiness tests) are embedded by small
helper functions with the exact JavaScript semantics.
-/

namespace ApimPolicies

/-- JS `String.prototype.toLowerCase()`, modelled character by character.  The
verbs compared in the source are plain ASCII HTTP method names, on which
per-character lowercasing agrees with the JS Unicode lowercasing. -/
def jsToLowerCase (s : String) : String := ⟨s.data.map Char.toLower⟩

/-- JS `Array.prototype.findIndex` / the index underlying `Array.prototype.find`:
index of the first element satisfying the predicate. -/
def jsFindIndex (p : α → Bool) : List α → Option Nat
  | [] => none
  | x :: xs => if p x then some 0 else (jsFindIndex p xs).map (· + 1)

/-- JS `Array.prototype.indexOf`: first index of `x`, `-1` when absent. -/
def jsIndexOf [BEq α] (l : List α) (x : α) : Int :=
  match jsFindIndex (· == x) l with
  | some i => (i : Int)
  | none => -1

/-- JS `Array.prototype.splice(start, 1)`: a negative `start` counts from the
end (clamped at `0`), a `start` beyond the length deletes nothing; at most one
element, the one at the actual start position, is removed. -/
def jsSpliceRemoveOne (l : List α) (start : Int) : List α :=
  let len : Int := l.length
  let s : Int := if start < 0 then max (len + start) 0 else min start len
  l.take s.toNat ++ l.drop (s.toNat + 1)

/-- One policy attachment of an operation flow (`ApiPolicy` in `Types.ts`):
a policy id, the parameter values, and the ephemeral editing-session `uuid`
(absent on freshly fetched or about-to-be-persisted attachments).  Parameter
objects are modelled as association lists of string keys and values. -/
structure ApiPolicy where
  policyId : String
  parameters : List (String × String)
  uuid : Option String
  deriving Repr, DecidableEq

/-- The three policy flows of an operation.  The source iterates the keys of the
`operationPolicies` object; per the data model these are exactly request,
response and fault. -/
inductive Flow where
  | request
  | response
  | fault
  deriving Repr, DecidableEq, Fintype

/-- The `operationPolicies` object of one operation: an ordered attachment list
per flow. -/
structure OperationPolicies where
  request : List ApiPolicy
  response : List ApiPolicy
  fault : List ApiPolicy
  deriving Repr, DecidableEq

/-- Read the attachment list of one flow (`operationPolicies[flow]`). -/
def OperationPolicies.get (ps : OperationPolicies) : Flow → List ApiPolicy
  | Flow.request => ps.request
  | Flow.response => ps.response
  | Flow.fault => ps.fault

/-- Write the attachment list of one flow (`operationPolicies[flow] = l`). -/
def OperationPolicies.set (ps : OperationPolicies) : Flow → List ApiPolicy → OperationPolicies
  | Flow.request, l => { ps with request := l }
  | Flow.response, l => { ps with response := l }
  | Flow.fault, l => { ps with fault := l }

/-- One API operation of the edited tree: a target path, an HTTP verb and the
per-flow attachment lists. -/
structure Operation where
  target : String
  verb : String
  operationPolicies : OperationPolicies
  deriving Repr, DecidableEq

/-- Modelled from the spec: the identifier generator `uuidv4` is imported from
`./Utils`, whose source is not part of this snapshot.  Spec §4.1: the generator
"returns a value guaranteed unique among all identifiers generated during the
process lifetime (collision probability negligible, e.g. 128-bit random or
monotonic counter)".  It is modelled as a monotonic counter rendered injectively
as a non-empty string; the counter state is threaded explicitly through every
function that generates identifiers. -/
def uuidv4 (n : Nat) : String := ⟨List.replicate (n + 1) 'u'⟩

/-- JS truthiness of the optional string `policyItem.uuid`: `undefined` and the
empty string are falsy, every other string is truthy. -/
def truthyUuid : Option String → Bool
  | none => false
  | some s => !(s == "")

/-- The predicate of the constrained-mode (Choreo Connect) operation lookup:
`op.target === target`. -/
def matchesTarget (target : String) (op : Operation) : Bool :=
  op.target == target

/-- The predicate of the regular operation lookup:
`op.target === target && op.verb.toLowerCase() === verb.toLowerCase()`. -/
def matchesTargetVerb (target verb : String) (op : Operation) : Bool :=
  op.target == target && jsToLowerCase op.verb == jsToLowerCase verb

/-- The operation locator of `updateApiOperations`: in Choreo Connect
(constrained) mode the operation is found by target alone, otherwise by target
and case-insensitive verb.  Returns the index of the located operation so that
the callers can rebuild the tree around it. -/
def locateOperationIdx (cc : Bool) (ops : List Operation) (target verb : String) : Option Nat :=
  if cc then jsFindIndex (matchesTarget target) ops
  else jsFindIndex (matchesTargetVerb target verb) ops

/-- The located operation itself (the source's `newApiOperations.find(...)`). -/
def locateOperation (cc : Bool) (ops : List Operation) (target verb : String) : Option Operation :=
  (locateOperationIdx cc ops target verb).bind (fun i => ops[i]?)

/-- The attachment lookup of `updateApiOperations`:
`p.policyId === updatedOperation.policyId && p.uuid === updatedOperation.uuid`. -/
def policyMatches (u : ApiPolicy) (p : ApiPolicy) : Bool :=
  p.policyId == u.policyId && p.uuid == u.uuid

/-- The flow-list core of `updateApiOperations`: if an attachment with the
incoming `policyId` and `uuid` exists, overwrite its `parameters` with a copy of
the incoming ones; otherwise push the incoming attachment with a freshly
generated `uuid`.  Returns the new list and the new generator state. -/
def upsertPolicyList (u : ApiPolicy) (ctr : Nat) (l : List ApiPolicy) : List ApiPolicy × Nat :=
  match jsFindIndex (policyMatches u) l with
  | some i =>
    match l[i]? with
    | some p => (l.set i { p with parameters := u.parameters }, ctr)
    | none => (l, ctr)
  | none => (l ++ [{ u with uuid := some (uuidv4 ctr) }], ctr + 1)

/-- `updateApiOperations` (upsert one): clone the tree, locate the operation by
the mode-dependent rule, and upsert the incoming attachment into the given
flow's list.  `none` models the fatal locator miss (the source would throw on a
missing operation). -/
def updateApiOperations (cc : Bool) (u : ApiPolicy) (target verb : String) (flow : Flow)
    (ops : List Operation) (ctr : Nat) : Option (List Operation × Nat) :=
  match locateOperationIdx cc ops target verb with
  | none => none
  | some i =>
    match ops[i]? with
    | none => none
    | some op =>
      let r := upsertPolicyList u ctr (op.operationPolicies.get flow)
      some (ops.set i { op with operationPolicies := op.operationPolicies.set flow r.1 }, r.2)

/-- `updateAllApiOperations` (upsert all): for every operation of the tree, in
order, generate a fresh `uuid` and push the incoming attachment carrying it onto
that operation's list of the given flow. -/
def updateAllApiOperations (u : ApiPolicy) (flow : Flow) :
    List Operation → Nat → List Operation × Nat
  | [], ctr => ([], ctr)
  | op :: rest, ctr =>
    let l' := op.operationPolicies.get flow ++ [{ u with uuid := some (uuidv4 ctr) }]
    let op' := { op with operationPolicies := op.operationPolicies.set flow l' }
    let r := updateAllApiOperations u flow rest (ctr + 1)
    (op' :: r.1, r.2)

/-- `deleteApiOperation`: locate the operation by target and case-insensitive
verb (this function always uses the regular lookup), take the `indexOf` the
argument `uuid` in the flow list's uuid projection, and `splice` one element out
at that index.  `none` models the fatal locator miss. -/
def deleteApiOperation (uuid target verb : String) (flow : Flow)
    (ops : List Operation) : Option (List Operation) :=
  match jsFindIndex (matchesTargetVerb target verb) ops with
  | none => none
  | some i =>
    match ops[i]? with
    | none => none
    | some op =>
      let l := op.operationPolicies.get flow
      let idx := jsIndexOf (l.map ApiPolicy.uuid) (some uuid)
      let op' := { op with operationPolicies := op.operationPolicies.set flow (jsSpliceRemoveOne l idx) }
      some (ops.set i op')

/-- Modelled from the spec: `arrayMove` comes from the external
`@dnd-kit/sortable` package, which is not part of this repository.  Spec §4.4:
"remove the element at `oldIndex` and reinsert it at `newIndex` within the same
list, shifting intervening elements" (the package implements exactly this with
two `splice` calls).  Out-of-range `oldIndex` is not exercised by the claims and
leaves the list unchanged here. -/
def arrayMove (l : List α) (oldIndex newIndex : Nat) : List α :=
  match l[oldIndex]? with
  | none => l
  | some x =>
    let removed := l.take oldIndex ++ l.drop (oldIndex + 1)
    removed.take newIndex ++ x :: removed.drop newIndex

/-- `rearrangeApiOperations` (reorder): locate the operation by target and
case-insensitive verb and move the flow-list element at `oldIndex` to
`newIndex`.  `none` models the fatal locator miss. -/
def rearrangeApiOperations (oldIndex newIndex : Nat) (target verb : String) (flow : Flow)
    (ops : List Operation) : Option (List Operation) :=
  match jsFindIndex (matchesTargetVerb target verb) ops with
  | none => none
  | some i =>
    match ops[i]? with
    | none => none
    | some op =>
      let l' := arrayMove (op.operationPolicies.get flow) oldIndex newIndex
      let op' := { op with operationPolicies := op.operationPolicies.set flow l' }
      some (ops.set i op')

/-- The per-flow body of `saveApi`'s reconciliation loop.  When the gateway
changed, each iteration of the `forEach` over the old list replaces the flow's
list with a fresh empty array (an empty list is left as it is, the `forEach`
body never runs).  Otherwise every attachment whose `uuid` is truthy has the
`uuid` field deleted. -/
def saveFlowList (isGatewayChanged : Bool) (l : List ApiPolicy) : List ApiPolicy :=
  if isGatewayChanged then (if l.isEmpty then l else [])
  else l.map (fun p => if truthyUuid p.uuid then { p with uuid := none } else p)

/-- The reconciliation loop of `saveApi` over the whole tree: every flow of
every operation is reconciled by `saveFlowList`. -/
def saveOperations (isGatewayChanged : Bool) (ops : List Operation) : List Operation :=
  ops.map (fun op =>
    let ps : OperationPolicies :=
      { request := saveFlowList isGatewayChanged op.operationPolicies.request
        response := saveFlowList isGatewayChanged op.operationPolicies.response
        fault := saveFlowList isGatewayChanged op.operationPolicies.fault }
    { op with operationPolicies := ps })

/-- `saveApi`: the payload handed to the external `updateAPI` collaborator — the
reconciled operations plus the gateway vendor tag (`"WSO2_CHOREO_CONNECT"` in
Choreo Connect mode, the default `"wso2"` otherwise). -/
def saveApi (isGatewayChanged cc : Bool) (ops : List Operation) : List Operation × String :=
  (saveOperations isGatewayChanged ops, if cc then "WSO2_CHOREO_CONNECT" else "wso2")

/-- A policy catalog entry (`Policy` / `PolicySpec` in `Types.ts`): the fields
used by `fetchPolicies` are the id, the display name and the supported-gateway
list. -/
structure PolicySpec where
  id : String
  displayName : String
  supportedGateways : List String
  deriving Repr, DecidableEq

/-- JS `Map.prototype.set` on a map keyed by strings, modelled on the map's
entry list: an existing key keeps its position and gets the new value, a new key
is appended at the end.  JS `Map` iteration order is exactly this entry order. -/
def mapSet (m : List (String × PolicySpec)) (k : String) (v : PolicySpec) :
    List (String × PolicySpec) :=
  match m with
  | [] => [(k, v)]
  | (k', v') :: rest => if k' == k then (k', v) :: rest else (k', v') :: mapSet rest k v

/-- JS `Map.prototype.get`, on the entry-list model. -/
def mapGet (m : List (String × PolicySpec)) (k : String) : Option PolicySpec :=
  (m.find? (fun e => e.1 == k)).map Prod.snd

/-- The deduplication step of `fetchPolicies`:
`[...mergedList.reduce((map, obj) => map.set(obj.displayName, obj), new Map()).values()]`.
For each display name the last-seen entry survives, placed at the name's first
occurrence position. -/
def dedupByDisplayName (l : List PolicySpec) : List PolicySpec :=
  (l.foldl (fun m obj => mapSet m obj.displayName obj) []).map Prod.snd

/-- Modelled from the spec: the sort comparator of `fetchPolicies` is
`a.displayName.localeCompare(b.displayName)`, executed by the JS runtime's
locale machinery (an external collaborator).  It is modelled as the total order
on display-name strings; spec §4.6 only requires a locale-aware total
comparison, and after deduplication the compared display names are pairwise
distinct, so any total order yields a unique sorted catalog. -/
def nameLe (a b : PolicySpec) : Prop := a.displayName ≤ b.displayName

instance : DecidableRel nameLe :=
  fun a b => inferInstanceAs (Decidable (a.displayName ≤ b.displayName))

instance : IsTotal PolicySpec nameLe :=
  ⟨fun a b => le_total a.displayName b.displayName⟩

instance : IsTrans PolicySpec nameLe :=
  ⟨fun _ _ _ h h' => le_trans h h'⟩

/-- `fetchPolicies`: from the two fetched catalog lists, the pair of artifacts
put into state — `allPolicies` (the plain concatenation, common list first) and
`policies` (the deduplicated, sorted list filtered to entries supporting the
`"Synapse"` gateway).  JS `Array.prototype.sort` with a consistent comparator is
a stable sort, modelled by `List.insertionSort`. -/
def fetchPolicies (apiSpecificPolicies commonPolicies : List PolicySpec) :
    List PolicySpec × List PolicySpec :=
  let mergedList := commonPolicies ++ apiSpecificPolicies
  let unionByPolicyDisplayName := dedupByDisplayName mergedList
  let sortedList := List.insertionSort nameLe unionByPolicyDisplayName
  let filteredList := sortedList.filter (fun p => p.supportedGateways.contains "Synapse")
  (mergedList, filteredList)

/-- The last catalog entry carrying a given display name, if any — the entry the
claims call "last-seen" for that name. -/
def lastWithName : List PolicySpec → String → Option PolicySpec
  | [], _ => none
  | p :: rest, n =>
    match lastWithName rest n with
    | some q => some q
    | none => if p.displayName == n then some p else none

/-- Replace one flow's attachment list of an operation, leaving its other two
flow lists and remaining fields untouched. -/
def setFlowList (op : Operation) (f : Flow) (l : List ApiPolicy) : Operation :=
  { op with operationPolicies := op.operationPolicies.set f l }

/-- The payload property demanded by the spec of a reconciled tree: no
attachment of any flow of any operation still carries a `uuid` field. -/
def uuidFreeTree (ops : List Operation) : Prop :=
  ∀ op ∈ ops, ∀ f : Flow, ∀ p ∈ op.operationPolicies.get f, p.uuid = none

instance (ops : List Operation) : Decidable (uuidFreeTree ops) :=
  inferInstanceAs (Decidable
    (∀ op ∈ ops, ∀ f : Flow, ∀ p ∈ op.operationPolicies.get f, p.uuid = none))

/-- Well-formedness of the entry list modelling the JS `Map` of
`dedupByDisplayName`: every value is stored under its own display name and the
keys are pairwise distinct. -/
def wfPolicyMap (m : List (String × PolicySpec)) : Prop :=
  (∀ e ∈ m, (e.2).displayName = e.1) ∧ (m.map Prod.fst).Nodup

section Helpers

/-- Reading back the flow just written by `OperationPolicies.set`. -/
theorem OperationPolicies.get_set (ps : OperationPolicies) (f : Flow) (l : List ApiPolicy) :
    (ps.set f l).get f = l := by
  cases f <;> rfl

/-- Reading back the flow just written by `setFlowList`. -/
theorem setFlowList_get (op : Operation) (f : Flow) (l : List ApiPolicy) :
    (setFlowList op f l).operationPolicies.get f = l :=
  OperationPolicies.get_set op.operationPolicies f l

/-- Unfolding of the bulk upsert on a non-empty tree. -/
theorem updateAll_cons (u : ApiPolicy) (f : Flow) (o : Operation) (rest : List Operation)
    (ctr : Nat) :
    updateAllApiOperations u f (o :: rest) ctr =
      (setFlowList o f (o.operationPolicies.get f ++ [{ u with uuid := some (uuidv4 ctr) }]) ::
          (updateAllApiOperations u f rest (ctr + 1)).1,
        (updateAllApiOperations u f rest (ctr + 1)).2) := rfl

/-- Reading a flow other than the one written by `OperationPolicies.set`. -/
theorem OperationPolicies.get_set_ne (ps : OperationPolicies) (f g : Flow) (l : List ApiPolicy)
    (h : f ≠ g) : (ps.set f l).get g = ps.get g := by
  cases f <;> cases g <;> first | rfl | exact absurd rfl h

/-- The element found by `jsFindIndex` satisfies the predicate. -/
theorem jsFindIndex_some {p : α → Bool} :
    ∀ {l : List α} {i : Nat} {a : α}, jsFindIndex p l = some i → l[i]? = some a → p a = true
  | [], i, a => by simp [jsFindIndex]
  | x :: xs, i, a => by
    intro hfind hget
    by_cases hx : p x
    · simp only [jsFindIndex, hx, if_pos] at hfind
      cases hfind
      simp only [List.getElem?_cons_zero, Option.some.injEq] at hget
      cases hget
      exact hx
    · simp only [jsFindIndex, hx, if_neg, Bool.false_eq_true, not_false_iff, Option.map_eq_some']
        at hfind
      obtain ⟨j, hj, rfl⟩ := hfind
      exact jsFindIndex_some hj (by simpa using hget)

/-- A `jsFindIndex` hit lies inside the list. -/
theorem jsFindIndex_lt_length {p : α → Bool} :
    ∀ {l : List α} {i : Nat}, jsFindIndex p l = some i → i < l.length
  | [], i => by simp [jsFindIndex]
  | x :: xs, i => by
    intro hfind
    by_cases hx : p x
    · simp only [jsFindIndex, hx, if_pos] at hfind
      cases hfind
      simp
    · simp only [jsFindIndex, hx, if_neg, Bool.false_eq_true, not_false_iff, Option.map_eq_some']
        at hfind
      obtain ⟨j, hj, rfl⟩ := hfind
      have := jsFindIndex_lt_length hj
      simpa [Nat.succ_lt_succ_iff] using this

/-- When no element matches, `jsFindIndex` misses. -/
theorem jsFindIndex_eq_none {p : α → Bool} :
    ∀ {l : List α}, (∀ x ∈ l, p x = false) → jsFindIndex p l = none
  | [] => by simp [jsFindIndex]
  | x :: xs => by
    intro h
    have hx := h x (by simp)
    simp only [jsFindIndex, hx, Bool.false_eq_true, if_neg, not_false_iff, Option.map_eq_none']
    exact jsFindIndex_eq_none (fun y hy => h y (by simp [hy]))

/-- The identifier generator never repeats. -/
theorem uuidv4_injective : Function.Injective uuidv4 := by
  intro m n h
  have hlen : (uuidv4 m).length = (uuidv4 n).length := by rw [h]
  simpa [uuidv4, String.length] using hlen

/-- The identifier generator never produces the empty string. -/
theorem uuidv4_ne_empty (n : Nat) : uuidv4 n ≠ "" := by
  intro h
  have hlen : (uuidv4 n).length = ("" : String).length := by rw [h]
  simp [uuidv4, String.length] at hlen

/-- Splicing out one element is erasing at that index. -/
theorem take_append_drop_succ_eq_eraseIdx :
    ∀ (l : List α) (o : Nat), l.take o ++ l.drop (o + 1) = l.eraseIdx o
  | [], o => by cases o <;> rfl
  | _ :: _, 0 => by simp [List.eraseIdx]
  | a :: as, o + 1 => by
    simp only [List.take_succ_cons, List.drop_succ_cons, List.eraseIdx, List.cons_append,
      List.cons.injEq, true_and]
    exact take_append_drop_succ_eq_eraseIdx as o

/-- Splicing one element in is inserting at that index. -/
theorem take_append_cons_drop_eq_insertIdx :
    ∀ (r : List α) (n : Nat) (x : α), n ≤ r.length → r.take n ++ x :: r.drop n = r.insertIdx n x
  | _, 0, x => by simp [List.insertIdx_zero]
  | [], n + 1, x => by intro h; exact absurd h (by simp)
  | a :: as, n + 1, x => by
    intro h
    simp only [List.take_succ_cons, List.drop_succ_cons, List.insertIdx_succ_cons,
      List.cons_append, List.cons.injEq, true_and]
    exact take_append_cons_drop_eq_insertIdx as n x (by simpa using h)

/-- On valid indices, `arrayMove` is remove-at-`oldIndex` followed by
reinsert-at-`newIndex`. -/
theorem arrayMove_eq_eraseIdx_insertIdx (l : List α) (o n : Nat) (x : α)
    (hx : l[o]? = some x) (hn : n < l.length) :
    arrayMove l o n = (l.eraseIdx o).insertIdx n x := by
  have ho : o < l.length := by
    by_contra hcon
    rw [List.getElem?_eq_none (by omega)] at hx
    exact Option.noConfusion hx
  have hlen : (l.eraseIdx o).length = l.length - 1 := by
    rw [List.length_eraseIdx]
    simp [ho]
  have hle : n ≤ (l.eraseIdx o).length := by omega
  simp only [arrayMove, hx]
  rw [take_append_drop_succ_eq_eraseIdx]
  exact take_append_cons_drop_eq_insertIdx _ n x hle

/-- What the regular-mode locator guarantees about a hit: the found operation
has the requested target and, case-insensitively, the requested verb. -/
theorem locate_regular_spec {ops : List Operation} {t v : String} {i : Nat} {op : Operation}
    (hfind : locateOperationIdx false ops t v = some i) (hget : ops[i]? = some op) :
    op.target = t ∧ jsToLowerCase op.verb = jsToLowerCase v := by
  have h := jsFindIndex_some (p := matchesTargetVerb t v)
    (by simpa [locateOperationIdx] using hfind) hget
  simpa [matchesTargetVerb, Bool.and_eq_true, beq_iff_eq] using h

end Helpers

/-- Claim C1 (code-bug evaluation): deleting a uuid that occurs nowhere in the
flow's list does not leave the list unchanged.  The `indexOf` miss yields `-1`,
and `splice(-1, 1)` removes the last attachment of the list: here the single
attachment `"u1"` disappears although the uuid argument `"u2"` matches nothing. -/
theorem delete_unknown_uuid_removes_last_attachment :
    (([⟨"p1", [], some "u1"⟩] : List ApiPolicy).map ApiPolicy.uuid).contains (some "u2") = false ∧
    deleteApiOperation "u2" "/pets" "get" Flow.request
        [⟨"/pets", "get", ⟨[⟨"p1", [], some "u1"⟩], [], []⟩⟩] =
      some [⟨"/pets", "get", ⟨[], [], []⟩⟩] :=
  ⟨by decide, by decide⟩

/-- Claim C2: committing with `gatewayChanged = true` empties every flow list of
every operation in the reconciled payload, whatever the lists held before. -/
theorem save_gateway_changed_empties_flows (cc : Bool) (ops : List Operation) :
    ∀ op ∈ (saveApi true cc ops).1, ∀ f : Flow, op.operationPolicies.get f = [] := by
  intro op hop f
  simp only [saveApi, saveOperations, List.mem_map] at hop
  obtain ⟨o, _, rfl⟩ := hop
  have hsave : ∀ l : List ApiPolicy, saveFlowList true l = [] := by
    intro l
    cases l <;> simp [saveFlowList]
  cases f <;> simp [OperationPolicies.get, hsave]

/-- Concrete instance of `save_gateway_changed_empties_flows`. -/
theorem save_gateway_changed_empties_flows_witness :
    (⟨"/pets", "GET", ⟨[], [], []⟩⟩ : Operation).operationPolicies.get Flow.request = [] :=
  save_gateway_changed_empties_flows false
    [⟨"/pets", "GET", ⟨[⟨"p1", [("a", "1")], some "u1"⟩], [], []⟩⟩]
    ⟨"/pets", "GET", ⟨[], [], []⟩⟩ (by decide) Flow.request

/-- Claim C3: on a located operation, the upsert either overwrites exactly the
`parameters` of the first attachment matching the incoming `policyId` and
`uuid` (same list length, same order, all other fields kept), or, when no
attachment matches, appends the incoming attachment with a freshly generated
identifier at the end of the flow's list. -/
theorem upsertOne_edit_or_add (cc : Bool) (u : ApiPolicy) (t v : String) (f : Flow)
    (ops : List Operation) (ctr : Nat) (i : Nat) (op : Operation)
    (hfind : locateOperationIdx cc ops t v = some i) (hget : ops[i]? = some op) :
    (jsFindIndex (policyMatches u) (op.operationPolicies.get f) = none →
      updateApiOperations cc u t v f ops ctr =
        some (ops.set i (setFlowList op f
          (op.operationPolicies.get f ++ [{ u with uuid := some (uuidv4 ctr) }])), ctr + 1)) ∧
    (∀ j p, jsFindIndex (policyMatches u) (op.operationPolicies.get f) = some j →
      (op.operationPolicies.get f)[j]? = some p →
      updateApiOperations cc u t v f ops ctr =
        some (ops.set i (setFlowList op f
          ((op.operationPolicies.get f).set j { p with parameters := u.parameters })), ctr)) := by
  constructor
  · intro hnone
    simp [updateApiOperations, hfind, hget, upsertPolicyList, hnone, setFlowList]
  · intro j p hj hp
    simp [updateApiOperations, hfind, hget, upsertPolicyList, hj, hp, setFlowList]

/-- Concrete instance of `upsertOne_edit_or_add`, the edit branch: editing the
parameters of the attachment `("p1", "u1")` keeps the list at length one and
only changes `parameters`. -/
theorem upsertOne_edit_or_add_witness :
    updateApiOperations false ⟨"p1", [("a", "2")], some "u1"⟩ "/pets" "get" Flow.request
        [⟨"/pets", "GET", ⟨[⟨"p1", [("a", "1")], some "u1"⟩], [], []⟩⟩] 7 =
      some ([⟨"/pets", "GET", ⟨[⟨"p1", [("a", "2")], some "u1"⟩], [], []⟩⟩], 7) :=
  (upsertOne_edit_or_add false ⟨"p1", [("a", "2")], some "u1"⟩ "/pets" "get" Flow.request
      [⟨"/pets", "GET", ⟨[⟨"p1", [("a", "1")], some "u1"⟩], [], []⟩⟩] 7 0
      ⟨"/pets", "GET", ⟨[⟨"p1", [("a", "1")], some "u1"⟩], [], []⟩⟩ (by decide) (by decide)).2
    0 ⟨"p1", [("a", "1")], some "u1"⟩ (by decide) (by decide)

/-- Claim C5: the locator matches by target alone in constrained (Choreo
Connect) mode — the verb argument is irrelevant there — and by target plus
case-insensitive verb in regular mode, where two operations sharing a target
but differing in verb are never conflated. -/
theorem locator_mode_rules :
    (∀ (ops : List Operation) (t v₁ v₂ : String),
        locateOperationIdx true ops t v₁ = locateOperationIdx true ops t v₂) ∧
    (∀ (ops : List Operation) (t v : String) (i : Nat) (op : Operation),
        locateOperationIdx true ops t v = some i → ops[i]? = some op → op.target = t) ∧
    (∀ (ops : List Operation) (t v : String) (i : Nat) (op : Operation),
        locateOperationIdx false ops t v = some i → ops[i]? = some op →
          op.target = t ∧ jsToLowerCase op.verb = jsToLowerCase v) ∧
    (∀ (ops : List Operation) (t v v' : String) (i j : Nat) (op op' : Operation),
        jsToLowerCase v ≠ jsToLowerCase v' →
        locateOperationIdx false ops t v = some i → ops[i]? = some op →
        locateOperationIdx false ops t v' = some j → ops[j]? = some op' → op ≠ op') := by
  refine ⟨?_, ?_, ?_, ?_⟩
  · intro ops t v₁ v₂
    simp [locateOperationIdx]
  · intro ops t v i op hfind hget
    have h := jsFindIndex_some (p := matchesTarget t)
      (by simpa [locateOperationIdx] using hfind) hget
    simpa [matchesTarget, beq_iff_eq] using h
  · intro ops t v i op hfind hget
    exact locate_regular_spec hfind hget
  · intro ops t v v' i j op op' hne hfi hgi hfj hgj heq
    have h1 := locate_regular_spec hfi hgi
    have h2 := locate_regular_spec hfj hgj
    exact hne (by rw [← h1.2, heq, h2.2])

/-- Concrete instance of `locator_mode_rules`: with `GET` and `POST` operations
on `"/pets"`, the regular-mode locator never identifies the two. -/
theorem locator_mode_rules_witness :
    (⟨"/pets", "GET", ⟨[], [], []⟩⟩ : Operation) ≠ ⟨"/pets", "POST", ⟨[], [], []⟩⟩ :=
  locator_mode_rules.2.2.2
    [⟨"/pets", "GET", ⟨[], [], []⟩⟩, ⟨"/pets", "POST", ⟨[], [], []⟩⟩]
    "/pets" "get" "post" 0 1
    ⟨"/pets", "GET", ⟨[], [], []⟩⟩ ⟨"/pets", "POST", ⟨[], [], []⟩⟩
    (by decide) (by decide) (by decide) (by decide) (by decide)

/-- Claim C4 (counterexample): an attachment whose `uuid` field holds the empty
string is falsy in JS (`else if (policyItem.uuid)`), so the
`gatewayChanged = false` reconciliation does not delete its `uuid` field and
the payload still contains an attachment with a `uuid`. -/
theorem save_false_keeps_empty_string_uuid :
    ¬ uuidFreeTree (saveApi false false
        [⟨"/x", "get", ⟨[⟨"p9", [], some ""⟩], [], []⟩⟩]).1 := by
  decide

/-- Claim C4 (amended): for every input tree in which no present `uuid` is the
empty string — which holds of every identifier the generator produces — the
`gatewayChanged = false` payload contains zero attachments with a `uuid`
field. -/
theorem save_false_strips_uuids (cc : Bool) (ops : List Operation)
    (h : ∀ op ∈ ops, ∀ f : Flow, ∀ p ∈ op.operationPolicies.get f, p.uuid ≠ some "") :
    uuidFreeTree (saveApi false cc ops).1 := by
  intro op' hop' f p' hp'
  simp only [saveApi, saveOperations, List.mem_map] at hop'
  obtain ⟨o, ho, rfl⟩ := hop'
  have hflow : ∀ g : Flow,
      OperationPolicies.get
        { request := saveFlowList false o.operationPolicies.request
          response := saveFlowList false o.operationPolicies.response
          fault := saveFlowList false o.operationPolicies.fault } g =
        saveFlowList false (o.operationPolicies.get g) := by
    intro g
    cases g <;> rfl
  rw [show (OperationPolicies.get _ f = saveFlowList false (o.operationPolicies.get f))
    from hflow f] at hp'
  simp only [saveFlowList, Bool.false_eq_true, if_neg, List.mem_map, not_false_iff] at hp'
  obtain ⟨p, hpmem, rfl⟩ := hp'
  cases hpu : p.uuid with
  | none => simp [truthyUuid, hpu]
  | some s =>
    have hs : s ≠ "" := by
      intro hs
      exact h o ho f p hpmem (by rw [hpu, hs])
    simp [truthyUuid, hpu, hs]

/-- Concrete instance of `save_false_strips_uuids`. -/
theorem save_false_strips_uuids_witness :
    uuidFreeTree (saveApi false false
        [⟨"/pets", "GET", ⟨[⟨"p1", [], some "u1"⟩], [], [⟨"p2", [], none⟩]⟩⟩]).1 :=
  save_false_strips_uuids false
    [⟨"/pets", "GET", ⟨[⟨"p1", [], some "u1"⟩], [], [⟨"p2", [], none⟩]⟩⟩]
    (by decide)

/-- Claim C8: on valid indices, reorder removes the flow-list element at
`oldIndex` and reinserts it at `newIndex` within the same list (move semantics,
not a swap); the operation's other flow lists and fields, and all other
operations, are untouched. -/
theorem reorder_moves_element (oldI newI : Nat) (t v : String) (f : Flow)
    (ops : List Operation) (i : Nat) (op : Operation) (x : ApiPolicy)
    (hfind : jsFindIndex (matchesTargetVerb t v) ops = some i)
    (hget : ops[i]? = some op)
    (hx : (op.operationPolicies.get f)[oldI]? = some x)
    (hnew : newI < (op.operationPolicies.get f).length) :
    rearrangeApiOperations oldI newI t v f ops =
      some (ops.set i (setFlowList op f
        (((op.operationPolicies.get f).eraseIdx oldI).insertIdx newI x))) := by
  simp only [rearrangeApiOperations, hfind, hget]
  rw [arrayMove_eq_eraseIdx_insertIdx _ _ _ _ hx hnew]
  rfl

/-- Concrete instance of `reorder_moves_element`: moving index 0 to index 2 of
the four-element request flow `[A, B, C, D]` yields `[B, C, A, D]`. -/
theorem reorder_moves_element_witness :
    rearrangeApiOperations 0 2 "/pets" "get" Flow.request
        [⟨"/pets", "GET", ⟨[⟨"A", [], some "u1"⟩, ⟨"B", [], some "u2"⟩,
          ⟨"C", [], some "u3"⟩, ⟨"D", [], some "u4"⟩], [], []⟩⟩] =
      some [⟨"/pets", "GET", ⟨[⟨"B", [], some "u2"⟩, ⟨"C", [], some "u3"⟩,
        ⟨"A", [], some "u1"⟩, ⟨"D", [], some "u4"⟩], [], []⟩⟩] :=
  reorder_moves_element 0 2 "/pets" "get" Flow.request
    [⟨"/pets", "GET", ⟨[⟨"A", [], some "u1"⟩, ⟨"B", [], some "u2"⟩,
      ⟨"C", [], some "u3"⟩, ⟨"D", [], some "u4"⟩], [], []⟩⟩]
    0 ⟨"/pets", "GET", ⟨[⟨"A", [], some "u1"⟩, ⟨"B", [], some "u2"⟩,
      ⟨"C", [], some "u3"⟩, ⟨"D", [], some "u4"⟩], [], []⟩⟩
    ⟨"A", [], some "u1"⟩ (by decide) (by decide) (by decide) (by decide)

/-- Claim C9: the bulk upsert appends exactly one attachment, carrying a freshly
generated identifier, to the given flow of every operation of the tree; the
identifiers handed to the K operations are pairwise distinct. -/
theorem upsertAll_appends_fresh (u : ApiPolicy) (f : Flow) :
    ∀ (ops : List Operation) (ctr : Nat),
      (updateAllApiOperations u f ops ctr).2 = ctr + ops.length ∧
      (updateAllApiOperations u f ops ctr).1.length = ops.length ∧
      (∀ i op, ops[i]? = some op →
        (updateAllApiOperations u f ops ctr).1[i]? =
          some (setFlowList op f
            (op.operationPolicies.get f ++ [{ u with uuid := some (uuidv4 (ctr + i)) }]))) ∧
      (∀ i j, i < ops.length → j < ops.length → i ≠ j →
        uuidv4 (ctr + i) ≠ uuidv4 (ctr + j)) := by
  intro ops
  induction ops with
  | nil =>
    intro ctr
    refine ⟨rfl, rfl, ?_, ?_⟩
    · intro i op hget
      simp at hget
    · intro i j hi _ _
      simp at hi
  | cons o rest ih =>
    intro ctr
    obtain ⟨ih1, ih2, ih3, _⟩ := ih (ctr + 1)
    refine ⟨?_, ?_, ?_, ?_⟩
    · rw [updateAll_cons, ih1, List.length_cons]
      omega
    · rw [updateAll_cons, List.length_cons]
      simp [ih2]
    · intro i op hget
      cases i with
      | zero =>
        simp only [List.getElem?_cons_zero, Option.some.injEq] at hget
        cases hget
        rw [updateAll_cons]
        simp
      | succ n =>
        simp only [List.getElem?_cons_succ] at hget
        rw [updateAll_cons]
        simp only [List.getElem?_cons_succ]
        rw [ih3 n op hget, show ctr + 1 + n = ctr + (n + 1) from by omega]
    · intro i j hi hj hne heq
      have := uuidv4_injective heq
      omega

/-- Concrete instance of `upsertAll_appends_fresh`: a two-operation tree gets
the two distinct fresh identifiers `uuidv4 3` and `uuidv4 4`. -/
theorem upsertAll_appends_fresh_witness :
    (updateAllApiOperations ⟨"p3", [], none⟩ Flow.request
        [⟨"/pets", "GET", ⟨[], [], []⟩⟩, ⟨"/pets", "POST", ⟨[], [], []⟩⟩] 3).1[0]? =
      some (setFlowList ⟨"/pets", "GET", ⟨[], [], []⟩⟩ Flow.request
        [⟨"p3", [], some (uuidv4 (3 + 0))⟩]) ∧
    uuidv4 (3 + 0) ≠ uuidv4 (3 + 1) :=
  ⟨(upsertAll_appends_fresh ⟨"p3", [], none⟩ Flow.request
      [⟨"/pets", "GET", ⟨[], [], []⟩⟩, ⟨"/pets", "POST", ⟨[], [], []⟩⟩] 3).2.2.1
      0 ⟨"/pets", "GET", ⟨[], [], []⟩⟩ (by decide),
    (upsertAll_appends_fresh ⟨"p3", [], none⟩ Flow.request
      [⟨"/pets", "GET", ⟨[], [], []⟩⟩, ⟨"/pets", "POST", ⟨[], [], []⟩⟩] 3).2.2.2
      0 1 (by decide) (by decide) (by decide)⟩

/-- Claim C10: whatever `uuid` the caller-supplied attachment already carries,
the attachment actually appended — by the add branch of the single upsert and
by the bulk upsert on every operation — stores the freshly generated
identifier; the caller's `uuid` value never enters the tree. -/
theorem appended_attachment_gets_generated_uuid (u : ApiPolicy) (x : Option String) (f : Flow) :
    (∀ (ctr : Nat) (l : List ApiPolicy),
      jsFindIndex (policyMatches { u with uuid := x }) l = none →
      (upsertPolicyList { u with uuid := x } ctr l).1.getLast? =
        some ⟨u.policyId, u.parameters, some (uuidv4 ctr)⟩) ∧
    (∀ (ops : List Operation) (ctr i : Nat) (op : Operation), ops[i]? = some op →
      ((updateAllApiOperations { u with uuid := x } f ops ctr).1[i]?).map
          (fun o => (o.operationPolicies.get f).getLast?) =
        some (some ⟨u.policyId, u.parameters, some (uuidv4 (ctr + i))⟩)) := by
  constructor
  · intro ctr l hnone
    simp [upsertPolicyList, hnone]
  · intro ops
    induction ops with
    | nil =>
      intro ctr i op hget
      simp at hget
    | cons o rest ih =>
      intro ctr i op hget
      cases i with
      | zero =>
        simp only [List.getElem?_cons_zero, Option.some.injEq] at hget
        cases hget
        rw [updateAll_cons]
        simp only [List.getElem?_cons_zero, Option.map_some', setFlowList_get]
        simp
      | succ n =>
        simp only [List.getElem?_cons_succ] at hget
        rw [updateAll_cons]
        simp only [List.getElem?_cons_succ]
        rw [ih (ctr + 1) n op hget, show ctr + 1 + n = ctr + (n + 1) from by omega]

/-- Concrete instance of `appended_attachment_gets_generated_uuid`: even when
the caller passes `uuid := some "evil"`, the appended attachment stores the
generated identifier. -/
theorem appended_attachment_gets_generated_uuid_witness :
    (upsertPolicyList ⟨"p1", [], some "evil"⟩ 3 []).1.getLast? =
      some ⟨"p1", [], some "uuuu"⟩ :=
  (appended_attachment_gets_generated_uuid ⟨"p1", [], none⟩ (some "evil") Flow.request).1
    3 [] (by decide)

/-- Claim C6 (counterexample): the detail-lookup artifact (`allPolicies`) is set
to the plain merged list before any deduplication happens.  With a common and
an API-specific entry sharing the display name "Rate Limit" it keeps both
entries, so it differs from the merged-and-deduplicated list the claim
describes. -/
theorem allPolicies_not_deduplicated :
    (fetchPolicies [⟨"a1", "Rate Limit", ["Synapse"]⟩]
        [⟨"c1", "Rate Limit", ["Synapse"]⟩]).1 ≠
      dedupByDisplayName
        ([⟨"c1", "Rate Limit", ["Synapse"]⟩] ++ [⟨"a1", "Rate Limit", ["Synapse"]⟩]) := by
  decide

/-- Claim C6 (amended): the artifact used for detail lookup by id is the merged
list without deduplication (common policies first, then API-specific ones,
duplicates retained), and the second artifact is the deduplicated, sorted,
gateway-filtered selectable catalog. -/
theorem fetch_artifacts (apiSpecificPolicies commonPolicies : List PolicySpec) :
    (fetchPolicies apiSpecificPolicies commonPolicies).1 =
      commonPolicies ++ apiSpecificPolicies ∧
    (fetchPolicies apiSpecificPolicies commonPolicies).1.length =
      commonPolicies.length + apiSpecificPolicies.length ∧
    (fetchPolicies apiSpecificPolicies commonPolicies).2 =
      (List.insertionSort nameLe
          (dedupByDisplayName (commonPolicies ++ apiSpecificPolicies))).filter
        (fun p => p.supportedGateways.contains "Synapse") :=
  ⟨rfl, List.length_append _ _, rfl⟩

section CatalogLemmas

/-- Lookup on a cons cell of the entry-list Map. -/
theorem mapGet_cons (a : String) (c : PolicySpec) (rest : List (String × PolicySpec))
    (k : String) : mapGet ((a, c) :: rest) k = if a = k then some c else mapGet rest k := by
  by_cases h : a = k
  · have hb : (a == k) = true := beq_iff_eq.mpr h
    simp [mapGet, List.find?, hb, h]
  · have hb : (a == k) = false := beq_eq_false_iff_ne.mpr h
    simp [mapGet, List.find?, hb, h]

/-- Unfolding of `mapSet` on a cons cell whose key is the written one. -/
theorem mapSet_cons_hit {a : String} (b : PolicySpec) (rest : List (String × PolicySpec))
    {k : String} (v : PolicySpec) (h : a = k) :
    mapSet ((a, b) :: rest) k v = (a, v) :: rest := by
  have hb : (a == k) = true := beq_iff_eq.mpr h
  simp [mapSet, hb]

/-- Unfolding of `mapSet` on a cons cell whose key differs from the written
one. -/
theorem mapSet_cons_miss {a : String} (b : PolicySpec) (rest : List (String × PolicySpec))
    {k : String} (v : PolicySpec) (h : ¬ a = k) :
    mapSet ((a, b) :: rest) k v = (a, b) :: mapSet rest k v := by
  have hb : (a == k) = false := beq_eq_false_iff_ne.mpr h
  simp [mapSet, hb]

/-- Lookup after one `Map.set`: the written key reads the written value, every
other key is unaffected. -/
theorem mapGet_mapSet (m : List (String × PolicySpec)) (k' k : String) (v : PolicySpec) :
    mapGet (mapSet m k' v) k = if k' = k then some v else mapGet m k := by
  induction m with
  | nil =>
    rw [show mapSet [] k' v = [(k', v)] from rfl, mapGet_cons]
  | cons e rest ih =>
    obtain ⟨a, b⟩ := e
    by_cases hak' : a = k'
    · rw [mapSet_cons_hit b rest v hak', mapGet_cons, mapGet_cons]
      subst hak'
      by_cases hak : a = k <;> simp [hak]
    · rw [mapSet_cons_miss b rest v hak', mapGet_cons, mapGet_cons, ih]
      by_cases hak : a = k
      · have hk'k : ¬ k' = k := fun h => hak' (by rw [h, hak])
        simp [hak, hk'k]
      · simp [hak]

/-- Looking up a key in the Map built by the dedup fold returns the last
merged-list entry carrying that display name, or falls back to the initial
map. -/
theorem mapGet_foldl (l : List PolicySpec) :
    ∀ (m : List (String × PolicySpec)) (k : String),
      mapGet (l.foldl (fun m' obj => mapSet m' obj.displayName obj) m) k =
        match lastWithName l k with
        | some q => some q
        | none => mapGet m k := by
  induction l with
  | nil =>
    intro m k
    rfl
  | cons p rest ih =>
    intro m k
    rw [List.foldl_cons, ih]
    cases h : lastWithName rest k with
    | some q => simp [lastWithName, h]
    | none =>
      simp only [lastWithName, h]
      rw [mapGet_mapSet]
      by_cases hpk : p.displayName = k <;> simp [hpk]

/-- Keys present after a `Map.set` were present before or are the written key. -/
theorem mapSet_keys_subset (m : List (String × PolicySpec)) (k : String) (v : PolicySpec) :
    ∀ x ∈ (mapSet m k v).map Prod.fst, x ∈ m.map Prod.fst ∨ x = k := by
  induction m with
  | nil =>
    intro x hx
    simp [mapSet] at hx
    exact Or.inr hx
  | cons e rest ih =>
    obtain ⟨a, b⟩ := e
    intro x hx
    by_cases hak : a = k
    · rw [mapSet_cons_hit b rest v hak] at hx
      simp only [List.map_cons, List.mem_cons] at hx
      rcases hx with rfl | hx
      · exact Or.inl (by simp)
      · exact Or.inl (by simp [hx])
    · rw [mapSet_cons_miss b rest v hak] at hx
      simp only [List.map_cons, List.mem_cons] at hx
      rcases hx with rfl | hx
      · exact Or.inl (by simp)
      · rcases ih x hx with h | h
        · exact Or.inl (by simp [h])
        · exact Or.inr h

/-- `Map.set` preserves the Map well-formedness when the value is stored under
its own display name. -/
theorem wfPolicyMap_mapSet :
    ∀ {m : List (String × PolicySpec)} {k : String} {v : PolicySpec},
      wfPolicyMap m → v.displayName = k → wfPolicyMap (mapSet m k v)
  | [], k, v, _, hv => by
    constructor
    · intro e he
      simp only [mapSet, List.mem_singleton] at he
      rw [he]
      exact hv
    · simp [mapSet]
  | (a, b) :: rest, k, v, hm, hv => by
    obtain ⟨hnames, hnodup⟩ := hm
    rw [List.map_cons, List.nodup_cons] at hnodup
    obtain ⟨hanotin, hnodup'⟩ := hnodup
    have hwfrest : wfPolicyMap rest :=
      ⟨fun e he => hnames e (List.mem_cons_of_mem _ he), hnodup'⟩
    by_cases hak : a = k
    · refine ⟨?_, ?_⟩
      · intro e he
        rw [mapSet_cons_hit b rest v hak] at he
        rcases List.mem_cons.mp he with rfl | he'
        · exact hv.trans hak.symm
        · exact hnames e (List.mem_cons_of_mem _ he')
      · rw [mapSet_cons_hit b rest v hak, List.map_cons, List.nodup_cons]
        exact ⟨hanotin, hnodup'⟩
    · obtain ⟨ihnames, ihnodup⟩ := wfPolicyMap_mapSet hwfrest hv
      refine ⟨?_, ?_⟩
      · intro e he
        rw [mapSet_cons_miss b rest v hak] at he
        rcases List.mem_cons.mp he with rfl | he'
        · exact hnames (a, b) (by simp)
        · exact ihnames e he'
      · rw [mapSet_cons_miss b rest v hak, List.map_cons, List.nodup_cons]
        refine ⟨?_, ihnodup⟩
        intro hmem
        rcases mapSet_keys_subset rest k v a hmem with h | h
        · exact hanotin h
        · exact hak h

/-- The dedup fold builds a well-formed Map from a well-formed one. -/
theorem wfPolicyMap_foldl (l : List PolicySpec) :
    ∀ m, wfPolicyMap m →
      wfPolicyMap (l.foldl (fun m' obj => mapSet m' obj.displayName obj) m) := by
  induction l with
  | nil =>
    intro m hm
    exact hm
  | cons p rest ih =>
    intro m hm
    rw [List.foldl_cons]
    exact ih _ (wfPolicyMap_mapSet hm rfl)

/-- In a well-formed Map, every stored value's display name is a key. -/
theorem name_mem_keys {m : List (String × PolicySpec)}
    (hm : ∀ e ∈ m, (e.2).displayName = e.1) {p : PolicySpec}
    (hp : p ∈ m.map Prod.snd) : p.displayName ∈ m.map Prod.fst := by
  simp only [List.mem_map] at hp
  obtain ⟨e, he, rfl⟩ := hp
  rw [hm e he]
  exact List.mem_map.mpr ⟨e, he, rfl⟩

/-- In a well-formed Map, the stored values are exactly the successful lookups
at their own display names. -/
theorem mem_values_iff_mapGet :
    ∀ {m : List (String × PolicySpec)}, wfPolicyMap m → ∀ (p : PolicySpec),
      (p ∈ m.map Prod.snd ↔ mapGet m p.displayName = some p)
  | [], _, p => by simp [mapGet, List.find?]
  | (a, b) :: rest, hm, p => by
    obtain ⟨hnames, hnodup⟩ := hm
    rw [List.map_cons, List.nodup_cons] at hnodup
    obtain ⟨hanotin, hnodup'⟩ := hnodup
    have hwfrest : wfPolicyMap rest :=
      ⟨fun e he => hnames e (List.mem_cons_of_mem _ he), hnodup'⟩
    have hba : b.displayName = a := hnames (a, b) (by simp)
    rw [mapGet_cons, List.map_cons]
    constructor
    · intro hp
      rcases List.mem_cons.mp hp with rfl | hp'
      · rw [if_pos hba.symm]
      · have hkey := name_mem_keys hwfrest.1 hp'
        have hne : ¬ a = p.displayName := fun h => hanotin (h ▸ hkey)
        rw [if_neg hne]
        exact (mem_values_iff_mapGet hwfrest p).mp hp'
    · intro hp
      by_cases hap : a = p.displayName
      · rw [if_pos hap] at hp
        injection hp with hbp
        subst hbp
        exact List.mem_cons_self _ _
      · rw [if_neg hap] at hp
        exact List.mem_cons_of_mem _ ((mem_values_iff_mapGet hwfrest p).mpr hp)

/-- Membership in the deduplicated list: exactly the last-seen entry of each
display name survives. -/
theorem mem_dedupByDisplayName (l : List PolicySpec) (p : PolicySpec) :
    p ∈ dedupByDisplayName l ↔ lastWithName l p.displayName = some p := by
  have hwf : wfPolicyMap (l.foldl (fun m' obj => mapSet m' obj.displayName obj) []) :=
    wfPolicyMap_foldl l [] ⟨by simp, by simp⟩
  rw [show dedupByDisplayName l =
      (l.foldl (fun m' obj => mapSet m' obj.displayName obj) []).map Prod.snd from rfl]
  rw [mem_values_iff_mapGet hwf, mapGet_foldl]
  cases h : lastWithName l p.displayName with
  | none => simp [mapGet, List.find?]
  | some q => simp

end CatalogLemmas

/-- Claim C7: the selectable catalog contains exactly those entries that are the
last-seen entry of their display name in the merged list (common policies
first, then API-specific ones, so an API-specific entry shadows a common entry
of the same name) and that support the baseline `"Synapse"` gateway; and it is
sorted by display name. -/
theorem catalog_membership_and_sorted (apiSpecificPolicies commonPolicies : List PolicySpec) :
    (∀ p : PolicySpec,
        p ∈ (fetchPolicies apiSpecificPolicies commonPolicies).2 ↔
          (lastWithName (commonPolicies ++ apiSpecificPolicies) p.displayName = some p ∧
            "Synapse" ∈ p.supportedGateways)) ∧
    List.Sorted nameLe (fetchPolicies apiSpecificPolicies commonPolicies).2 := by
  constructor
  · intro p
    show p ∈ (List.insertionSort nameLe
        (dedupByDisplayName (commonPolicies ++ apiSpecificPolicies))).filter
        (fun p => p.supportedGateways.contains "Synapse") ↔ _
    rw [List.mem_filter, (List.perm_insertionSort nameLe _).mem_iff, mem_dedupByDisplayName]
    constructor
    · intro ⟨h1, h2⟩
      exact ⟨h1, by simpa using h2⟩
    · intro ⟨h1, h2⟩
      exact ⟨h1, by simpa using h2⟩
  · exact List.Pairwise.sublist (List.filter_sublist _)
      (List.sorted_insertionSort nameLe _)

/-- Concrete instance of `catalog_membership_and_sorted`: the API-specific
"Rate Limit" entry (the last-seen one) is in the catalog. -/
theorem catalog_membership_and_sorted_witness :
    (⟨"a1", "Rate Limit", ["Synapse"]⟩ : PolicySpec) ∈
      (fetchPolicies [⟨"a1", "Rate Limit", ["Synapse"]⟩]
        [⟨"c1", "Rate Limit", ["Synapse"]⟩, ⟨"c2", "Add Header", ["Synapse"]⟩]).2 :=
  ((catalog_membership_and_sorted [⟨"a1", "Rate Limit", ["Synapse"]⟩]
      [⟨"c1", "Rate Limit", ["Synapse"]⟩, ⟨"c2", "Add Header", ["Synapse"]⟩]).1
    ⟨"a1", "Rate Limit", ["Synapse"]⟩).mpr ⟨by decide, by decide⟩

end ApimPolicies
